import Mathlib

/-!
# Verification of the `adigo` ADI-graph engine

Shallow embedding of the Go package `adigo` (files `internal/adi.go`,
`graph/adi.go`, the `Box` node implementation and the demo driver).

Modelling conventions:
* Go `byte` adjacency words become `Nat` values; byte truncation is
  written explicitly as `% 256` where the source performs a conversion.
* Go `int` node indices become `Int` (the engine uses `-1` as the
  deleted-label sentinel); `Int.tdiv`/`Int.tmod` mirror Go's
  truncated-toward-zero division.
* A Go function that can panic (out-of-range slice access, method call
  on a nil interface) is modelled with `Option`: `none` is a panic.
* The Go `map[string]int` label index is modelled as an association
  list where insertion conses in front and lookup takes the first hit,
  which matches overwrite-on-duplicate map semantics.
* The concurrent fan-out in `Neighbors` is modelled by the sequential
  scan over (column, bit) pairs in ascending order; the Go code
  publishes the same set of hits in a nondeterministic order, so all
  set-level statements are unaffected.
* The unbounded `for` loop in `BFS` is modelled with explicit fuel;
  `BfsRes.fuelOut` for every fuel value models non-termination.
-/

deriving instance DecidableEq for Except

/-- Error values of the package (`errGraphBoundsMismatch`,
`errLabelNotFound`, `errDeleted` in `internal/adi.go`). -/
inductive AdiError where
  | graphBoundsMismatch
  | labelNotFound
  | deleted
deriving DecidableEq, Repr

/-- `Locator` from `internal/adi.go`: `column int; offset byte`.
The `offset` field holds the single-bit mask (a byte value). -/
structure Locator where
  column : Int
  offset : Nat
deriving DecidableEq, Repr

/-- `Box` from the node implementation: label, opaque contents
(always the empty string in this repository), adjacency words
(`adis []byte`) and the lazy-delete flag. -/
structure Box where
  label : String
  contents : String
  adis : List Nat
  deleted : Bool
deriving DecidableEq, Repr

/-- `NewBox` constructs a `Box` with the given label and two zero
adjacency words: `&Box{label, "", []byte{0, 0}, false}`. -/
def NewBox (label : String) : Box :=
  { label := label, contents := "", adis := [0, 0], deleted := false }

/-- `Box.AddColumn`: appends one zero-valued adjacency word. -/
def Box.AddColumn (s : Box) : Box :=
  { s with adis := s.adis ++ [0] }

/-- One step of `Box.AddEdges`: `s.adis[v.column] |= v.offset`.
`none` models the index-out-of-range panic when the column is not
inside the node's adjacency words. -/
def setBit (adis : List Nat) (v : Locator) : Option (List Nat) :=
  if 0 ≤ v.column then
    match adis[v.column.toNat]? with
    | some w => some (adis.set v.column.toNat (w ||| v.offset))
    | none => none
  else none

/-- One step of `Box.RemoveEdges`: `s.adis[v.column] &= ^v.offset`.
`^` on a Go byte is complement within 8 bits, i.e. XOR with 255. -/
def clearBit (adis : List Nat) (v : Locator) : Option (List Nat) :=
  if 0 ≤ v.column then
    match adis[v.column.toNat]? with
    | some w => some (adis.set v.column.toNat (w &&& (255 ^^^ v.offset)))
    | none => none
  else none

/-- `Box.AddEdges(locators...)`: sets each locator's bit in turn. -/
def Box.AddEdges : Box → List Locator → Option Box
  | b, [] => some b
  | b, v :: rest =>
    match setBit b.adis v with
    | some adis' => Box.AddEdges { b with adis := adis' } rest
    | none => none

/-- `Box.RemoveEdges(locators...)`: clears each locator's bit in turn. -/
def Box.RemoveEdges : Box → List Locator → Option Box
  | b, [] => some b
  | b, v :: rest =>
    match clearBit b.adis v with
    | some adis' => Box.RemoveEdges { b with adis := adis' } rest
    | none => none

/-- Strict loop of `Box.HasEdges`: fails as soon as one locator's bits
are not all present (`s.adis[v.column]&v.offset != v.offset`). -/
def hasAllLoop (adis : List Nat) : List Locator → Option Bool
  | [] => some true
  | v :: rest =>
    if 0 ≤ v.column then
      match adis[v.column.toNat]? with
      | some w => if w &&& v.offset ≠ v.offset then some false else hasAllLoop adis rest
      | none => none
    else none

/-- Non-strict loop of `Box.HasEdges`: succeeds as soon as one
locator's bit is present (`s.adis[v.column]&v.offset > 0`). -/
def hasAnyLoop (adis : List Nat) : List Locator → Option Bool
  | [] => some false
  | v :: rest =>
    if 0 ≤ v.column then
      match adis[v.column.toNat]? with
      | some w => if w &&& v.offset > 0 then some true else hasAnyLoop adis rest
      | none => none
    else none

/-- `Box.HasEdges(strict, locators...)`. -/
def Box.HasEdges (s : Box) (strict : Bool) (locators : List Locator) : Option Bool :=
  if strict then hasAllLoop s.adis locators else hasAnyLoop s.adis locators

/-- `Box.Delete`: sets the lazy-delete flag. -/
def Box.Delete (s : Box) : Box :=
  { s with deleted := true }

/-- `ADIGraph` from `internal/adi.go`. -/
structure ADIGraph where
  growthFactor : Nat
  wordSize : Nat
  nodes : List Box
  labels : List (String × Int)
deriving DecidableEq, Repr

/-- `NewGraph`: default word size 8, empty label map. -/
def NewGraph : ADIGraph :=
  { growthFactor := 0, wordSize := 8, nodes := [], labels := [] }

/-- Go map read `g.labels[label]`: first binding in the association
list (insertion conses in front, so this is overwrite semantics). -/
def lookupLabel (g : ADIGraph) (label : String) : Option Int :=
  (g.labels.find? (fun p => p.1 == label)).map (fun p => p.2)

/-- `ADIGraph.Size`. -/
def ADIGraph.Size (g : ADIGraph) : Nat :=
  g.nodes.length

/-- `ADIGraph.Grow`: adds a column to every node and increments the
growth factor. -/
def ADIGraph.Grow (g : ADIGraph) : ADIGraph :=
  { g with nodes := g.nodes.map Box.AddColumn, growthFactor := g.growthFactor + 1 }

/-- `ADIGraph.AddNode`: records the label at the pre-append table
length, appends the node, and grows when
`len(g.nodes) > wordSize-1 && len(g.nodes) % wordSize == 0`
(both tests read the length *before* the append). -/
def ADIGraph.AddNode (g : ADIGraph) (n : Box) : ADIGraph :=
  if g.nodes.length > g.wordSize - 1 ∧ g.nodes.length % g.wordSize = 0 then
    ADIGraph.Grow { g with labels := (n.label, (g.nodes.length : Int)) :: g.labels,
                           nodes := g.nodes ++ [n] }
  else
    { g with labels := (n.label, (g.nodes.length : Int)) :: g.labels,
             nodes := g.nodes ++ [n] }

/-- `ADIGraph.GetByIndex`: `-1` is the deleted sentinel; any other
index is used unchecked on the node slice, so an out-of-range index is
a panic (`none`). -/
def ADIGraph.GetByIndex (g : ADIGraph) (index : Int) : Option (Except AdiError Box) :=
  if index = -1 then some (Except.error AdiError.deleted)
  else if 0 ≤ index then
    match g.nodes[index.toNat]? with
    | some n => some (Except.ok n)
    | none => none
  else none

/-- `ADIGraph.GetByLabel`: map lookup then `GetByIndex`. -/
def ADIGraph.GetByLabel (g : ADIGraph) (label : String) : Option (Except AdiError Box) :=
  match lookupLabel g label with
  | some index => g.GetByIndex index
  | none => some (Except.error AdiError.labelNotFound)

/-- `ADIGraph.GetLocatorsByIndex`: `column = n / wordSize`,
`offset = 1 << byte(n % wordSize)` stored in a byte field.  Go `/` and
`%` on int truncate toward zero (`Int.tdiv`/`Int.tmod`); the byte
conversion of the shift amount and of the resulting mask are the
explicit `% 256` reductions. -/
def ADIGraph.GetLocatorsByIndex (g : ADIGraph) (n : Int) : Locator × Option AdiError :=
  if n = -1 then (⟨0, 0⟩, some AdiError.deleted)
  else
    let column := Int.tdiv n (g.wordSize : Int)
    let offset := Int.tmod n (g.wordSize : Int)
    (⟨column, (1 <<< (Int.emod offset 256).toNat) % 256⟩, none)

/-- `ADIGraph.GetLocatorsByLabel`. -/
def ADIGraph.GetLocatorsByLabel (g : ADIGraph) (label : String) : Locator × Option AdiError :=
  match lookupLabel g label with
  | some index => g.GetLocatorsByIndex index
  | none => (⟨0, 0⟩, some AdiError.labelNotFound)

/-- Target-resolution loop of `Connect`: locators whose lookup errors
are silently skipped. -/
def resolveTargets (g : ADIGraph) : List String → List Locator
  | [] => []
  | v :: rest =>
    match g.GetLocatorsByLabel v with
    | (loc, none) => loc :: resolveTargets g rest
    | (_, some _) => resolveTargets g rest

/-- `ADIGraph.Connect`: resolves the source by label (any failure is
reported as `errLabelNotFound`), resolves each target independently,
then writes all resolved locators onto the source node.  The source
node is an interface pointer into the node table, so the write is
modelled by updating the table slot. -/
def ADIGraph.Connect (g : ADIGraph) (label : String) (neighbors : List String) :
    Option (ADIGraph × Option AdiError) :=
  match lookupLabel g label with
  | none => some (g, some AdiError.labelNotFound)
  | some idx =>
    if idx = -1 then some (g, some AdiError.labelNotFound)
    else if 0 ≤ idx then
      match g.nodes[idx.toNat]? with
      | none => none
      | some item =>
        match Box.AddEdges item (resolveTargets g neighbors) with
        | none => none
        | some item' => some ({ g with nodes := g.nodes.set idx.toNat item' }, none)
    else none

/-- `ADIGraph.DeleteByIndex`: the error of the inner `GetByIndex` is
discarded, so when it fails the node variable is a nil interface and
the following `n.Label()` call panics (`none`).  Otherwise the label
is flagged `-1`, the node is lazy-deleted, and the node's locator bit
is removed from every node in the table. -/
def ADIGraph.DeleteByIndex (g : ADIGraph) (index : Int) : Option ADIGraph :=
  match g.GetByIndex index with
  | none => none
  | some (Except.error _) => none
  | some (Except.ok n) =>
    let labels' := (n.label, (-1 : Int)) :: g.labels
    let nodes₁ := g.nodes.set index.toNat (Box.Delete n)
    let locs := (g.GetLocatorsByIndex index).1
    match removeFromAll nodes₁ locs with
    | none => none
    | some nodes₂ => some { g with labels := labels', nodes := nodes₂ }
where
  /-- The deletion loop: `for _, n := range gn { n.RemoveEdges(locs) }`. -/
  removeFromAll : List Box → Locator → Option (List Box)
    | [], _ => some []
    | b :: rest, locs =>
      match Box.RemoveEdges b [locs] with
      | none => none
      | some b' =>
        match removeFromAll rest locs with
        | none => none
        | some rest' => some (b' :: rest')

/-- `ADIGraph.DeleteByLabel`: resolves the label (absence is
`errLabelNotFound`), then delegates to `DeleteByIndex`, always
reporting success regardless of the inner outcome. -/
def ADIGraph.DeleteByLabel (g : ADIGraph) (label : String) :
    Option (ADIGraph × Option AdiError) :=
  match lookupLabel g label with
  | some index =>
    match g.DeleteByIndex index with
    | none => none
    | some g' => some (g', none)
  | none => some (g, some AdiError.labelNotFound)

/-- The `lookup` worker of `Neighbors`: tests one (column, offset) bit
of one adjacency word; on a hit resolves the global index.  Outer
`none` is a panic inside `GetByIndex`; `some none` means the task
published nothing (bit unset or lookup error skipped). -/
def ADIGraph.lookup (g : ADIGraph) (col : Nat) (adi : Nat) (offset : Nat) :
    Option (Option Box) :=
  let checkbit := (1 <<< offset) % 256
  if adi &&& checkbit ≠ 0 then
    match g.GetByIndex ((col * g.wordSize + offset : Nat) : Int) with
    | none => none
    | some (Except.error _) => some none
    | some (Except.ok node) => some (some node)
  else some none

/-- Sequential collection of the fan-out tasks of `Neighbors`, in
ascending (column, offset) order. -/
def scanPairs (g : ADIGraph) (adis : List Nat) : List (Nat × Nat) → Option (List Box)
  | [] => some []
  | (c, j) :: rest =>
    match g.lookup c (adis.getD c 0) j with
    | none => none
    | some none => scanPairs g adis rest
    | some (some node) => (scanPairs g adis rest).map (fun l => node :: l)

/-- All (column, offset) pairs spawned by `Neighbors`:
`i < len(adis)`, `j < wordSize`. -/
def allPairs (cols w : Nat) : List (Nat × Nat) :=
  (List.range cols).flatMap (fun c => (List.range w).map (fun j => (c, j)))

/-- `ADIGraph.Neighbors`: one task per (column, offset) pair of the
node's adjacency words; the Go code collects the hits in an arbitrary
interleaving, modelled here by the ascending scan. -/
def ADIGraph.Neighbors (g : ADIGraph) (n : Box) : Option (List Box) :=
  scanPairs g n.adis (allPairs n.adis.length g.wordSize)

/-- Result of a fuel-bounded run of `BFS`. -/
inductive BfsRes where
  | found : Bool → BfsRes
  | panicked
  | fuelOut
deriving DecidableEq, Repr

/-- The `for len(queue) > 0` loop of `BFS`: inspect the front node,
return true on a hit, otherwise append all its neighbors and pop.
Fuel exhaustion (`fuelOut`) models a run that has not finished. -/
def bfsLoop (g : ADIGraph) (bLoc : Locator) : List Box → Nat → BfsRes
  | _, 0 => BfsRes.fuelOut
  | [], _ + 1 => BfsRes.found false
  | q0 :: rest, fuel + 1 =>
    match Box.HasEdges q0 false [bLoc] with
    | none => BfsRes.panicked
    | some true => BfsRes.found true
    | some false =>
      match g.Neighbors q0 with
      | none => BfsRes.panicked
      | some ns => bfsLoop g bLoc (rest ++ ns) fuel

/-- `ADIGraph.BFS`: direct-neighbor short-circuit on the target's
locator (the locator lookup error is discarded), then the queue loop
seeded with the source's neighbors. -/
def ADIGraph.BFS (g : ADIGraph) (a b : Box) (fuel : Nat) : BfsRes :=
  let bLoc := (g.GetLocatorsByLabel b.label).1
  match Box.HasEdges a false [bLoc] with
  | none => BfsRes.panicked
  | some true => BfsRes.found true
  | some false =>
    match g.Neighbors a with
    | none => BfsRes.panicked
    | some q => bfsLoop g bLoc q fuel

/-- Graph built by `k` `AddNode` calls of fresh `NewBox` nodes with
distinct labels `"0"`, `"1"`, … on a new graph. -/
def addBoxes (k : Nat) : ADIGraph :=
  (List.range k).foldl (fun g i => g.AddNode (NewBox (Nat.repr i))) NewGraph

/-! ## Basic facts about insertion -/

theorem addNode_wordSize (g : ADIGraph) (n : Box) : (g.AddNode n).wordSize = g.wordSize := by
  unfold ADIGraph.AddNode ADIGraph.Grow
  split <;> rfl

theorem addNode_length (g : ADIGraph) (n : Box) :
    (g.AddNode n).nodes.length = g.nodes.length + 1 := by
  unfold ADIGraph.AddNode ADIGraph.Grow
  split <;> simp

theorem addBoxes_succ (k : Nat) :
    addBoxes (k + 1) = (addBoxes k).AddNode (NewBox (Nat.repr k)) := by
  unfold addBoxes
  rw [List.range_succ, List.foldl_append]
  rfl

theorem addBoxes_wordSize (k : Nat) : (addBoxes k).wordSize = 8 := by
  induction k with
  | zero => rfl
  | succ k ih => rw [addBoxes_succ, addNode_wordSize]; exact ih

theorem addBoxes_length (k : Nat) : (addBoxes k).nodes.length = k := by
  induction k with
  | zero => rfl
  | succ k ih => rw [addBoxes_succ, addNode_length, ih]

/-- On a non-negative index the locator arithmetic is plain natural
division: `column = i / 8`, `offset-mask = 1 <<< (i % 8)` (no byte
truncation occurs because `i % 8 < 8`). -/
theorem getLocators_nonneg (g : ADIGraph) (hW : g.wordSize = 8) (i : Int) (h0 : 0 ≤ i) :
    g.GetLocatorsByIndex i = (⟨((i.toNat / 8 : Nat) : Int), 1 <<< (i.toNat % 8)⟩, none) := by
  unfold ADIGraph.GetLocatorsByIndex
  rw [if_neg (by omega), hW]
  lift i to Nat using h0 with m
  have h1 : Int.tdiv (m : Int) ((8 : Nat) : Int) = ((m / 8 : Nat) : Int) := by
    exact_mod_cast (Int.ofNat_tdiv m 8).symm
  have h2 : Int.tmod (m : Int) ((8 : Nat) : Int) = ((m % 8 : Nat) : Int) := by
    exact_mod_cast (Int.ofNat_tmod m 8).symm
  have h3 : Int.emod ((m % 8 : Nat) : Int) 256 = ((m % 8 : Nat) : Int) := by
    rw [show Int.emod ((m % 8 : Nat) : Int) 256 = ((m % 8 : Nat) : Int) % 256 from rfl]
    omega
  have hm8 : m % 8 < 8 := Nat.mod_lt _ (by norm_num)
  have hlt : (1 : Nat) <<< (m % 8) < 256 := by
    rw [Nat.shiftLeft_eq, one_mul]
    exact lt_of_lt_of_le (Nat.pow_lt_pow_right one_lt_two hm8) (by norm_num)
  simp only [h1, h2, h3]
  rw [show (((m % 8 : Nat) : Int)).toNat = m % 8 from rfl, Nat.mod_eq_of_lt hlt]
  rfl

/-! ## C1: growth timing in `AddNode` -/

/-- C1 (amended): the growth step (an `AddColumn` on every node in the
table, the new node included, plus incrementing the growth factor) is
invoked exactly when the table length measured *before* appending the
new node is a positive multiple of the word size `W`; concretely with
`W = 8`, growth fires upon the 9th insertion and again upon the 17th,
and the very first insertion never triggers growth. -/
theorem addNode_grows_on_prefill_multiple (g : ADIGraph) (n : Box) (hW : 1 ≤ g.wordSize) :
    ((0 < g.nodes.length ∧ g.nodes.length % g.wordSize = 0) →
      (g.AddNode n).nodes = (g.nodes ++ [n]).map Box.AddColumn)
    ∧ (¬(0 < g.nodes.length ∧ g.nodes.length % g.wordSize = 0) →
      (g.AddNode n).nodes = g.nodes ++ [n])
    ∧ ((g.AddNode n).growthFactor = g.growthFactor + 1 ↔
        (0 < g.nodes.length ∧ g.nodes.length % g.wordSize = 0))
    ∧ (addBoxes 1).growthFactor = 0
    ∧ (addBoxes 8).growthFactor = 0
    ∧ (addBoxes 9).growthFactor = 1
    ∧ (addBoxes 16).growthFactor = 1
    ∧ (addBoxes 17).growthFactor = 2 := by
  have key : (g.nodes.length > g.wordSize - 1 ∧ g.nodes.length % g.wordSize = 0) ↔
      (0 < g.nodes.length ∧ g.nodes.length % g.wordSize = 0) := by
    constructor
    · rintro ⟨h1, h2⟩
      exact ⟨by omega, h2⟩
    · rintro ⟨h1, h2⟩
      have := Nat.le_of_dvd h1 (Nat.dvd_of_mod_eq_zero h2)
      exact ⟨by omega, h2⟩
  refine ⟨?_, ?_, ?_, by decide, by decide, by decide, by decide, by decide⟩
  · intro h
    unfold ADIGraph.AddNode
    rw [if_pos (key.mpr h)]
    rfl
  · intro h
    unfold ADIGraph.AddNode
    rw [if_neg (fun hc => h (key.mp hc))]
  · unfold ADIGraph.AddNode
    split
    next hc => exact iff_of_true rfl (key.mp hc)
    next hc => exact iff_of_false (by simp) (fun h => hc (key.mpr h))

/-- C1 counterexample: with `W = 8`, growth has *not* fired after the
8th insertion (growth factor still 0, every node still at the two
initial words), and fires upon the 9th insertion instead. -/
theorem growth_does_not_fire_on_8th_insertion :
    (addBoxes 8).growthFactor = 0
    ∧ (addBoxes 8).nodes.map (fun b => b.adis.length) = [2, 2, 2, 2, 2, 2, 2, 2]
    ∧ (addBoxes 9).growthFactor = 1 := by decide

/-- C1 witness: the amended growth rule applied to the concrete graph
holding 8 nodes, whose 9th insertion grows. -/
theorem addNode_grows_on_prefill_multiple_witness :
    1 ≤ (addBoxes 8).wordSize
    ∧ ((addBoxes 8).AddNode (NewBox "8")).growthFactor = (addBoxes 8).growthFactor + 1 := by
  refine ⟨by decide, ?_⟩
  exact (addNode_grows_on_prefill_multiple (addBoxes 8) (NewBox "8") (by decide)).2.2.1.mpr
    (by decide)

/-! ## C2: adjacency-word counts across the table -/

/-- C2 (amended): word counts are not uniform.  After `n` `AddNode`
calls of fresh `NewBox` nodes on a new graph, the node at 0-based
index `i` holds `2 + (n-1)/8 - (i-1)/8` adjacency words (natural
division; `NewBox` starts every node at 2 words and the node receives
one extra word per growth step that fires at or after its own
insertion). -/
theorem addBoxes_word_count (n i : Nat) (h : i < n) :
    ∃ b, (addBoxes n).nodes[i]? = some b
      ∧ b.adis.length = 2 + (n - 1) / 8 - (i - 1) / 8 := by
  induction n generalizing i with
  | zero => omega
  | succ n ih =>
    rw [addBoxes_succ]
    unfold ADIGraph.AddNode
    have hw8 := addBoxes_wordSize n
    have hlen := addBoxes_length n
    rw [hw8, hlen]
    split
    next hc =>
      simp only [ADIGraph.Grow, List.getElem?_map]
      rcases Nat.lt_or_ge i n with hin | hin
      · obtain ⟨b, hb, hlenb⟩ := ih i hin
        rw [List.getElem?_append_left (by rw [hlen]; exact hin), hb]
        refine ⟨b.AddColumn, rfl, ?_⟩
        simp only [Box.AddColumn, List.length_append, List.length_cons, List.length_nil]
        omega
      · have hi : i = n := by omega
        subst hi
        have hcat : ∀ (l : List Box) (a : Box), l.length = i → (l ++ [a])[i]? = some a := by
          intro l a hl
          subst hl
          exact List.getElem?_concat_length l a
        rw [hcat _ _ hlen]
        refine ⟨(NewBox (Nat.repr i)).AddColumn, rfl, ?_⟩
        simp only [Box.AddColumn, NewBox, List.length_append, List.length_cons,
          List.length_nil]
        omega
    next hc =>
      simp only []
      rcases Nat.lt_or_ge i n with hin | hin
      · obtain ⟨b, hb, hlenb⟩ := ih i hin
        rw [List.getElem?_append_left (by rw [hlen]; exact hin), hb]
        refine ⟨b, rfl, ?_⟩
        omega
      · have hi : i = n := by omega
        subst hi
        have hcat : ∀ (l : List Box) (a : Box), l.length = i → (l ++ [a])[i]? = some a := by
          intro l a hl
          subst hl
          exact List.getElem?_concat_length l a
        rw [hcat _ _ hlen]
        refine ⟨NewBox (Nat.repr i), rfl, ?_⟩
        simp only [NewBox, List.length_cons, List.length_nil]
        omega

/-- C2 counterexample: after 10 insertions on a fresh graph the first
nine nodes hold 3 adjacency words while the node inserted last holds
only 2, so the nodes do not share a common word count (and in
particular do not all hold `ceil(Size/W)` words). -/
theorem word_counts_not_uniform :
    (addBoxes 10).nodes.map (fun b => b.adis.length) = [3, 3, 3, 3, 3, 3, 3, 3, 3, 2]
    ∧ ¬(∀ b1 ∈ (addBoxes 10).nodes, ∀ b2 ∈ (addBoxes 10).nodes,
        b1.adis.length = b2.adis.length) := by decide

/-- C2 witness: the word-count formula evaluated at the graph of 10
insertions, index 0 (3 words) and index 9 (2 words). -/
theorem addBoxes_word_count_witness :
    (∃ b, (addBoxes 10).nodes[0]? = some b ∧ b.adis.length = 3)
    ∧ (∃ b, (addBoxes 10).nodes[9]? = some b ∧ b.adis.length = 2) := by
  constructor
  · obtain ⟨b, hb, hl⟩ := addBoxes_word_count 10 0 (by omega)
    exact ⟨b, hb, by omega⟩
  · obtain ⟨b, hb, hl⟩ := addBoxes_word_count 10 9 (by omega)
    exact ⟨b, hb, by omega⟩

/-! ## C9: locator arithmetic -/

/-- C9: for every non-negative index `i` (with the graph's word size 8
as set by `NewGraph`), `GetLocatorsByIndex` succeeds and returns
`(column, mask) = (i / 8, 1 <<< (i % 8))`; distinct non-negative
indices yield distinct `(column, mask)` pairs; and index `-1` fails
with the deleted-sentinel error. -/
theorem getLocatorsByIndex_spec (g : ADIGraph) (hW : g.wordSize = 8) :
    (∀ i : Nat, g.GetLocatorsByIndex (i : Int)
        = (⟨((i / 8 : Nat) : Int), 1 <<< (i % 8)⟩, none))
    ∧ (∀ i j : Nat, i ≠ j →
        (g.GetLocatorsByIndex (i : Int)).1 ≠ (g.GetLocatorsByIndex (j : Int)).1)
    ∧ g.GetLocatorsByIndex (-1) = (⟨0, 0⟩, some AdiError.deleted) := by
  have base : ∀ i : Nat, g.GetLocatorsByIndex (i : Int)
      = (⟨((i / 8 : Nat) : Int), 1 <<< (i % 8)⟩, none) := by
    intro i
    have h := getLocators_nonneg g hW (i : Int) (by omega)
    simpa using h
  refine ⟨base, ?_, by rfl⟩
  intro i j hne heq
  rw [base i, base j] at heq
  have heq' : (⟨((i / 8 : Nat) : Int), 1 <<< (i % 8)⟩ : Locator)
      = ⟨((j / 8 : Nat) : Int), 1 <<< (j % 8)⟩ := heq
  rw [Locator.mk.injEq] at heq'
  have hcol : (i / 8 : Nat) = j / 8 := by exact_mod_cast heq'.1
  have hoff : (1 : Nat) <<< (i % 8) = 1 <<< (j % 8) := heq'.2
  rw [Nat.shiftLeft_eq, Nat.shiftLeft_eq, one_mul, one_mul] at hoff
  have hmod : i % 8 = j % 8 := Nat.pow_right_injective (by norm_num) hoff
  omega

/-- C9 witness: the locator formula and sentinel failure on the
freshly constructed graph at indices 11, 12 and -1. -/
theorem getLocatorsByIndex_spec_witness :
    NewGraph.GetLocatorsByIndex ((11 : Nat) : Int)
      = (⟨((11 / 8 : Nat) : Int), 1 <<< (11 % 8)⟩, none)
    ∧ (NewGraph.GetLocatorsByIndex ((11 : Nat) : Int)).1
        ≠ (NewGraph.GetLocatorsByIndex ((12 : Nat) : Int)).1
    ∧ NewGraph.GetLocatorsByIndex (-1) = (⟨0, 0⟩, some AdiError.deleted) := by
  exact ⟨(getLocatorsByIndex_spec NewGraph rfl).1 11,
    (getLocatorsByIndex_spec NewGraph rfl).2.1 11 12 (by omega),
    (getLocatorsByIndex_spec NewGraph rfl).2.2⟩

/-! ## C3/C4: deletion -/

/-- Clearing a mask that was built as `1 <<< s` with `s < 8` from a
word through the byte complement leaves no bit of the mask set. -/
theorem and_byteNot_and_self (w s : Nat) (hs : s < 8) :
    (w &&& (255 ^^^ (1 <<< s))) &&& (1 <<< s) = 0 := by
  rw [Nat.and_assoc]
  have h2 : (255 ^^^ (1 <<< s)) &&& (1 <<< s) = 0 := by interval_cases s <;> decide
  rw [h2, Nat.and_zero]

/-- `RemoveEdges` with a single in-range locator rewrites exactly the
addressed word with the byte complement of the mask. -/
theorem removeEdges_single (b : Box) (v : Locator) (h0 : 0 ≤ v.column)
    (hc : v.column.toNat < b.adis.length) :
    Box.RemoveEdges b [v]
      = some { b with adis := (b.adis.set v.column.toNat
          ((b.adis.getD v.column.toNat 0) &&& (255 ^^^ v.offset))) } := by
  have hg : b.adis[v.column.toNat]? = some b.adis[v.column.toNat] :=
    List.getElem?_eq_getElem hc
  have hgD : b.adis.getD v.column.toNat 0 = b.adis[v.column.toNat] := by
    rw [List.getD_eq_getElem?_getD, hg]
    rfl
  unfold Box.RemoveEdges clearBit
  rw [if_pos h0, hg, hgD]
  rfl

/-- The deletion loop applies the same single-locator clear to every
node of the table, preserving positions and list length. -/
theorem removeFromAll_spec (v : Locator) (h0 : 0 ≤ v.column) :
    ∀ nodes : List Box, (∀ b ∈ nodes, v.column.toNat < b.adis.length) →
    ∃ nodes', ADIGraph.DeleteByIndex.removeFromAll nodes v = some nodes'
      ∧ nodes'.length = nodes.length
      ∧ ∀ k : Nat, nodes'[k]? = nodes[k]?.map (fun b =>
          { b with adis := (b.adis.set v.column.toNat
              ((b.adis.getD v.column.toNat 0) &&& (255 ^^^ v.offset))) }) := by
  intro nodes
  induction nodes with
  | nil =>
    intro _
    exact ⟨[], rfl, rfl, fun k => by simp⟩
  | cons b rest ih =>
    intro hall
    have hb : v.column.toNat < b.adis.length := hall b (by simp)
    obtain ⟨rest', hr, hlen, hget⟩ := ih (fun x hx => hall x (by simp [hx]))
    refine ⟨({ b with adis := (b.adis.set v.column.toNat
      ((b.adis.getD v.column.toNat 0) &&& (255 ^^^ v.offset))) }) :: rest',
      ?_, by simp [hlen], ?_⟩
    · unfold ADIGraph.DeleteByIndex.removeFromAll
      rw [removeEdges_single b v h0 hb, hr]
    · intro k
      cases k with
      | zero => simp
      | succ k => simpa using hget k

/-- C3 (amended): deleting a live node `x` — `DeleteByIndex` on `x`'s
index or `DeleteByLabel` on `x`'s label — clears the bit at `x`'s
locator in every node's adjacency words and leaves `Size` unchanged;
but `GetByLabel(x.label)` afterwards fails with the deleted-sentinel
error kind (`errDeleted`), not with `errLabelNotFound`, because the
label remains in the index mapped to `-1`. -/
theorem delete_clears_bits_keeps_size (g : ADIGraph) (lab : String) (i : Int) (x : Box)
    (hW : g.wordSize = 8)
    (hl : lookupLabel g lab = some i) (h0 : 0 ≤ i)
    (hb : g.nodes[i.toNat]? = some x) (hx : x.label = lab)
    (hw : ∀ b ∈ g.nodes, i.toNat / 8 < b.adis.length) :
    ∃ g', g.DeleteByIndex i = some g'
      ∧ g.DeleteByLabel lab = some (g', none)
      ∧ g'.Size = g.Size
      ∧ g'.GetByLabel lab = some (Except.error AdiError.deleted)
      ∧ ∀ b' ∈ g'.nodes, ∃ w, b'.adis[i.toNat / 8]? = some w
          ∧ w &&& (1 <<< (i.toNat % 8)) = 0 := by
  have hilen : i.toNat < g.nodes.length := (List.getElem?_eq_some_iff.mp hb).1
  have hxmem : x ∈ g.nodes := by
    obtain ⟨hlt, heq⟩ := List.getElem?_eq_some_iff.mp hb
    exact heq ▸ List.getElem_mem hlt
  have hget : g.GetByIndex i = some (Except.ok x) := by
    unfold ADIGraph.GetByIndex
    rw [if_neg (by omega), if_pos h0, hb]
  have hloc := getLocators_nonneg g hW i h0
  have hall : ∀ b ∈ g.nodes.set i.toNat (Box.Delete x),
      (⟨((i.toNat / 8 : Nat) : Int), 1 <<< (i.toNat % 8)⟩ : Locator).column.toNat
        < b.adis.length := by
    intro b hbmem
    rcases List.mem_or_eq_of_mem_set hbmem with hmem | rfl
    · exact hw b hmem
    · show i.toNat / 8 < (Box.Delete x).adis.length
      simpa [Box.Delete] using hw x hxmem
  obtain ⟨nodes2, hrfa, hlen2, hget2⟩ :=
    removeFromAll_spec ⟨((i.toNat / 8 : Nat) : Int), 1 <<< (i.toNat % 8)⟩
      (by positivity) (g.nodes.set i.toNat (Box.Delete x)) hall
  have hdel : g.DeleteByIndex i
      = some { g with labels := (x.label, (-1 : Int)) :: g.labels, nodes := nodes2 } := by
    unfold ADIGraph.DeleteByIndex
    rw [hget]
    simp only [hloc]
    rw [hrfa]
  refine ⟨_, hdel, ?_, ?_, ?_, ?_⟩
  · simp only [ADIGraph.DeleteByLabel, hl, hdel]
  · show nodes2.length = g.nodes.length
    rw [hlen2, List.length_set]
  · show ADIGraph.GetByLabel _ lab = _
    unfold ADIGraph.GetByLabel lookupLabel
    simp [hx, ADIGraph.GetByIndex]
  · intro b' hb'
    obtain ⟨k, hk, hkeq⟩ := List.mem_iff_getElem.mp hb'
    have hsome : nodes2[k]? = some b' := by
      rw [List.getElem?_eq_getElem hk, hkeq]
    have hk2 := hget2 k
    rw [hsome] at hk2
    cases h1 : (g.nodes.set i.toNat (Box.Delete x))[k]? with
    | none => rw [h1] at hk2; simp at hk2
    | some b1 =>
      rw [h1] at hk2
      have hb1mem : b1 ∈ g.nodes.set i.toNat (Box.Delete x) := by
        obtain ⟨hlt, heq⟩ := List.getElem?_eq_some_iff.mp h1
        exact heq ▸ List.getElem_mem hlt
      have hcol : i.toNat / 8 < b1.adis.length := hall b1 hb1mem
      have hb' : b' = { b1 with adis := (b1.adis.set (i.toNat / 8)
          ((b1.adis.getD (i.toNat / 8) 0) &&& (255 ^^^ (1 <<< (i.toNat % 8))))) } :=
        Option.some.inj hk2
      subst hb'
      refine ⟨(b1.adis.getD (i.toNat / 8) 0) &&& (255 ^^^ (1 <<< (i.toNat % 8))), ?_, ?_⟩
      · exact List.getElem?_set_self (by simpa using hcol)
      · exact and_byteNot_and_self _ _ (Nat.mod_lt _ (by norm_num))

/-- Two-node graph: labels "a" (index 0) and "b" (index 1). -/
def gAB : ADIGraph := (NewGraph.AddNode (NewBox "a")).AddNode (NewBox "b")

/-- `gAB` after connecting "b" to "a" (bit 0 of word 0 on node "b"). -/
def gABconn : ADIGraph :=
  match gAB.Connect "b" ["a"] with
  | some p => p.1
  | none => gAB

/-- C3 counterexample: in the two-node graph with an edge b→a,
deleting "a" succeeds, but the subsequent `GetByLabel "a"` fails with
the deleted-sentinel error, not with the label-not-found error the
claim names. -/
theorem getByLabel_after_delete_is_deleted_error :
    ((gABconn.DeleteByLabel "a").map (fun p => p.1.GetByLabel "a"))
      = some (some (Except.error AdiError.deleted))
    ∧ ((gABconn.DeleteByLabel "a").map (fun p => p.1.GetByLabel "a"))
      ≠ some (some (Except.error AdiError.labelNotFound)) := by decide

/-- C3 witness: the amended deletion contract applied to the concrete
graph `gABconn` at node "a" (index 0). -/
theorem delete_clears_bits_keeps_size_witness :
    ∃ g', gABconn.DeleteByIndex 0 = some g'
      ∧ gABconn.DeleteByLabel "a" = some (g', none)
      ∧ g'.Size = gABconn.Size
      ∧ g'.GetByLabel "a" = some (Except.error AdiError.deleted)
      ∧ ∀ b' ∈ g'.nodes, ∃ w, b'.adis[(0 : Int).toNat / 8]? = some w
          ∧ w &&& (1 <<< ((0 : Int).toNat % 8)) = 0 :=
  delete_clears_bits_keeps_size gABconn "a" 0 (NewBox "a") rfl (by decide) (by decide)
    (by decide) rfl (by decide)

/-- C4 (code bug): `DeleteByLabel` called twice with the same label on
a one-node graph.  The first call succeeds with a nil error; the
second finds the `-1` sentinel still mapped to the label, calls
`DeleteByIndex(-1)`, discards the lookup error, and dereferences the
nil node — a panic (`none`), not an error return. -/
theorem deleteByLabel_twice_panics :
    ((NewGraph.AddNode (NewBox "a")).DeleteByLabel "a").map (fun p => p.2) = some none
    ∧ ((NewGraph.AddNode (NewBox "a")).DeleteByLabel "a").map
        (fun p => p.1.DeleteByLabel "a") = some none := by decide

/-! ## C5: Connect -/

/-- `setBit` on an in-range locator ORs the mask into the addressed
word. -/
theorem setBit_some (adis : List Nat) (v : Locator) (h0 : 0 ≤ v.column)
    (hc : v.column.toNat < adis.length) :
    setBit adis v
      = some (adis.set v.column.toNat ((adis.getD v.column.toNat 0) ||| v.offset)) := by
  have hg : adis[v.column.toNat]? = some adis[v.column.toNat] :=
    List.getElem?_eq_getElem hc
  have hgD : adis.getD v.column.toNat 0 = adis[v.column.toNat] := by
    rw [List.getD_eq_getElem?_getD, hg]
    rfl
  unfold setBit
  rw [if_pos h0, hg, hgD]

/-- `AddEdges` on locators whose columns are in range: it succeeds,
preserves the word count, label and deleted flag, keeps every
previously set bit, sets every bit of every supplied mask at its
column, and sets no other bit. -/
theorem addEdges_spec : ∀ (locs : List Locator) (b : Box),
    (∀ v ∈ locs, 0 ≤ v.column ∧ v.column.toNat < b.adis.length) →
    ∃ b', Box.AddEdges b locs = some b'
      ∧ b'.adis.length = b.adis.length
      ∧ b'.label = b.label
      ∧ b'.deleted = b.deleted
      ∧ (∀ (c k : Nat), (∃ w, b.adis[c]? = some w ∧ w.testBit k) →
          ∃ w', b'.adis[c]? = some w' ∧ w'.testBit k)
      ∧ (∀ v ∈ locs, ∀ (k : Nat), v.offset.testBit k →
          ∃ w', b'.adis[v.column.toNat]? = some w' ∧ w'.testBit k)
      ∧ (∀ (c k w' : Nat), b'.adis[c]? = some w' → w'.testBit k →
          (∃ w, b.adis[c]? = some w ∧ w.testBit k)
          ∨ ∃ v ∈ locs, c = v.column.toNat ∧ v.offset.testBit k) := by
  intro locs
  induction locs with
  | nil =>
    intro b _
    refine ⟨b, rfl, rfl, rfl, rfl, fun c k h => h, by simp, fun c k w' h1 h2 => ?_⟩
    exact Or.inl ⟨w', h1, h2⟩
  | cons v rest ih =>
    intro b hall
    obtain ⟨h0v, hcv⟩ := hall v (by simp)
    set w0 := b.adis.getD v.column.toNat 0 with hw0
    set b1 : Box := { b with adis := (b.adis.set v.column.toNat (w0 ||| v.offset)) } with hb1
    have hstep : Box.AddEdges b (v :: rest) = Box.AddEdges b1 rest := by
      show (match setBit b.adis v with
        | some adis' => Box.AddEdges { b with adis := adis' } rest
        | none => none) = Box.AddEdges b1 rest
      rw [setBit_some b.adis v h0v hcv]
    have hlen1 : b1.adis.length = b.adis.length := by simp [hb1]
    have hb1get : ∀ c : Nat, b1.adis[c]? =
        if c = v.column.toNat then some (w0 ||| v.offset) else b.adis[c]? := by
      intro c
      by_cases hcc : c = v.column.toNat
      · subst hcc
        rw [if_pos rfl]
        show (b.adis.set v.column.toNat (w0 ||| v.offset))[v.column.toNat]? = _
        exact List.getElem?_set_self (by simpa using hcv)
      · rw [if_neg hcc]
        show (b.adis.set v.column.toNat (w0 ||| v.offset))[c]? = _
        exact List.getElem?_set_ne (fun h => hcc h.symm)
    have hw0get : b.adis[v.column.toNat]? = some w0 := by
      rw [hw0, List.getD_eq_getElem?_getD, List.getElem?_eq_getElem hcv]
      rfl
    obtain ⟨b', hadd, hlen, hlab, hdel, hmono, hlocs, hnew⟩ :=
      ih b1 (fun u hu => by
        have := hall u (by simp [hu])
        rw [hlen1]
        exact this)
    refine ⟨b', by rw [hstep, hadd], by rw [hlen, hlen1], hlab, hdel, ?_, ?_, ?_⟩
    · -- old bits of b survive into b'
      intro c k ⟨w, hwc, hwk⟩
      apply hmono c k
      rw [hb1get c]
      by_cases hcc : c = v.column.toNat
      · subst hcc
        rw [if_pos rfl]
        rw [hw0get] at hwc
        obtain rfl := Option.some.inj hwc
        exact ⟨w0 ||| v.offset, rfl, by rw [Nat.testBit_or, hwk, Bool.true_or]⟩
      · rw [if_neg hcc]
        exact ⟨w, hwc, hwk⟩
    · -- every supplied mask's bits are set in b'
      intro u hu k huk
      rcases List.mem_cons.mp hu with rfl | hurest
      · apply hmono u.column.toNat k
        rw [hb1get u.column.toNat, if_pos rfl]
        exact ⟨w0 ||| u.offset, rfl, by rw [Nat.testBit_or, huk, Bool.or_true]⟩
      · exact hlocs u hurest k huk
    · -- no other bit appears
      intro c k w' hw' hwk
      rcases hnew c k w' hw' hwk with ⟨w1, hw1c, hw1k⟩ | ⟨u, hu, hceq, huk⟩
      · rw [hb1get c] at hw1c
        by_cases hcc : c = v.column.toNat
        · subst hcc
          rw [if_pos rfl] at hw1c
          obtain rfl := Option.some.inj hw1c
          rw [Nat.testBit_or] at hw1k
          rcases Bool.or_eq_true_iff.mp hw1k with h | h
          · exact Or.inl ⟨w0, hw0get, h⟩
          · exact Or.inr ⟨v, by simp, rfl, h⟩
        · rw [if_neg hcc] at hw1c
          exact Or.inl ⟨w1, hw1c, hw1k⟩
      · exact Or.inr ⟨u, by simp [hu], hceq, huk⟩

/-- A target label that resolves contributes its locator to the
resolved list of `Connect`. -/
theorem resolveTargets_mem (g : ADIGraph) (t : String) (loc : Locator) :
    ∀ ts : List String, t ∈ ts → g.GetLocatorsByLabel t = (loc, none) →
    loc ∈ resolveTargets g ts := by
  intro ts
  induction ts with
  | nil => intro h; simp at h
  | cons u rest ih =>
    intro hmem hres
    have hunf : resolveTargets g (u :: rest) = (match g.GetLocatorsByLabel u with
      | (l, none) => l :: resolveTargets g rest
      | (_, some _) => resolveTargets g rest) := rfl
    rcases List.mem_cons.mp hmem with rfl | hrest
    · rw [hunf, hres]
      exact List.mem_cons_self _ _
    · rcases hgu : g.GetLocatorsByLabel u with ⟨l, e⟩
      cases e with
      | none =>
        rw [hunf, hgu]
        exact List.mem_cons_of_mem _ (ih hrest hres)
      | some err =>
        rw [hunf, hgu]
        exact ih hrest hres

/-- Three-node graph: labels "a", "b", "c" at indices 0, 1, 2. -/
def gABC : ADIGraph :=
  ((NewGraph.AddNode (NewBox "a")).AddNode (NewBox "b")).AddNode (NewBox "c")

/-- C5 counterexample: in the graph of 18 insertions, label "17"
(the source) and label "16" (the target) both resolve, yet
`Connect "17" ["16"]` panics (index out of range in `AddEdges`:
node 17 holds only 2 adjacency words while node 16's locator column
is 2) instead of returning without error. -/
theorem connect_resolved_target_can_panic :
    lookupLabel (addBoxes 18) "17" = some 17
    ∧ lookupLabel (addBoxes 18) "16" = some 16
    ∧ (addBoxes 18).Connect "17" ["16"] = none := by decide

/-- C5 (amended): `Connect` fails with `LabelNotFound` and mutates
nothing when the source label is absent; when the source resolves to a
table slot and every resolved target's locator column fits inside the
source node's adjacency words, unresolved targets are silently skipped,
the bits of every resolved target's locator are set on the source node,
no other node and no other bit is touched, and the call returns no
error.  (Without the column-fit condition the call panics, see the
counterexample.) -/
theorem connect_source_abort_targets_skipped (g : ADIGraph) (src : String) (ts : List String) :
    (lookupLabel g src = none → g.Connect src ts = some (g, some AdiError.labelNotFound))
    ∧ (∀ (s : Int) (x : Box), lookupLabel g src = some s → 0 ≤ s → g.nodes[s.toNat]? = some x →
        (∀ v ∈ resolveTargets g ts, 0 ≤ v.column ∧ v.column.toNat < x.adis.length) →
        ∃ x', g.Connect src ts = some ({ g with nodes := g.nodes.set s.toNat x' }, none)
          ∧ x'.label = x.label
          ∧ (∀ t ∈ ts, ∀ loc : Locator, g.GetLocatorsByLabel t = (loc, none) →
              ∀ (k : Nat), loc.offset.testBit k →
                ∃ w, x'.adis[loc.column.toNat]? = some w ∧ w.testBit k)
          ∧ (∀ (c k w' : Nat), x'.adis[c]? = some w' → w'.testBit k →
              (∃ w, x.adis[c]? = some w ∧ w.testBit k)
              ∨ ∃ v ∈ resolveTargets g ts, c = v.column.toNat ∧ v.offset.testBit k)) := by
  constructor
  · intro hnone
    simp only [ADIGraph.Connect, hnone]
  · intro s x hs h0 hx hbound
    obtain ⟨x', hadd, hlen, hlab, hdel, hmono, hlocs, hnew⟩ :=
      addEdges_spec (resolveTargets g ts) x hbound
    refine ⟨x', ?_, hlab, ?_, hnew⟩
    · simp only [ADIGraph.Connect, hs]
      rw [if_neg (by omega), if_pos h0, hx]
      show (match Box.AddEdges x (resolveTargets g ts) with
        | none => none
        | some item' => some ({ g with nodes := g.nodes.set s.toNat item' }, none)) = _
      rw [hadd]
    · intro t ht loc hres k hk
      exact hlocs loc (resolveTargets_mem g t loc ts ht hres) k hk

/-- C5 witness: on the three-node graph, connecting "a" to
"b", "unknown", "c" sets exactly the bits for "b" and "c" (word 0
becomes 6) with no error; an absent source label aborts with
`LabelNotFound`; and the amended contract instantiates at source "a". -/
theorem connect_source_abort_targets_skipped_witness :
    (gABC.Connect "a" ["b", "unknown", "c"]).map (fun p => (p.1.nodes.map Box.adis, p.2))
      = some ([[6, 0], [0, 0], [0, 0]], none)
    ∧ gABC.Connect "zz" ["b"] = some (gABC, some AdiError.labelNotFound)
    ∧ ∃ x', gABC.Connect "a" ["b", "unknown", "c"]
        = some ({ gABC with nodes := gABC.nodes.set (0 : Int).toNat x' }, none)
      ∧ x'.label = (NewBox "a").label
      ∧ (∀ t ∈ ["b", "unknown", "c"], ∀ loc : Locator,
          gABC.GetLocatorsByLabel t = (loc, none) →
          ∀ (k : Nat), loc.offset.testBit k →
            ∃ w, x'.adis[loc.column.toNat]? = some w ∧ w.testBit k)
      ∧ (∀ (c k w' : Nat), x'.adis[c]? = some w' → w'.testBit k →
          (∃ w, (NewBox "a").adis[c]? = some w ∧ w.testBit k)
          ∨ ∃ v ∈ resolveTargets gABC ["b", "unknown", "c"],
              c = v.column.toNat ∧ v.offset.testBit k) := by
  refine ⟨by decide, (connect_source_abort_targets_skipped gABC "zz" ["b"]).1 (by decide), ?_⟩
  exact (connect_source_abort_targets_skipped gABC "a" ["b", "unknown", "c"]).2 0 (NewBox "a")
    (by decide) (by decide) (by decide) (by decide)

/-! ## C6: Neighbors -/

/-- The Go bit test `adi & byte(1 << offset) != 0` is exactly
`Nat.testBit` for offsets below 8. -/
theorem and_checkbit_iff (w j : Nat) (hj : j < 8) :
    (w &&& ((1 <<< j) % 256) ≠ 0) ↔ w.testBit j := by
  have hcb : (1 <<< j) % 256 = 2 ^ j := by
    rw [Nat.shiftLeft_eq, one_mul]
    exact Nat.mod_eq_of_lt
      (lt_of_lt_of_le (Nat.pow_lt_pow_right one_lt_two hj) (by norm_num))
  rw [hcb, Nat.and_two_pow]
  cases h : w.testBit j <;> simp [h]

/-- One fan-out task of `Neighbors`: it panics on no input whose set
bit is in range, publishes the node at `c*8 + j` when bit `j` is set,
and publishes nothing otherwise. -/
theorem lookup_spec (g : ADIGraph) (hW : g.wordSize = 8) (c adi j : Nat)
    (hj : j < 8) (hbound : adi.testBit j → c * 8 + j < g.nodes.length) :
    ∃ r, g.lookup c adi j = some r
      ∧ ∀ x, r = some x ↔ (adi.testBit j ∧ g.nodes[c * 8 + j]? = some x) := by
  unfold ADIGraph.lookup
  rw [hW]
  by_cases hbit : adi.testBit j
  · have hlt := hbound hbit
    have hne : ((c * 8 + j : Nat) : Int) ≠ -1 := by omega
    have hnn : (0 : Int) ≤ ((c * 8 + j : Nat) : Int) := by omega
    have hgot : g.nodes[c * 8 + j]? = some g.nodes[c * 8 + j] :=
      List.getElem?_eq_getElem hlt
    refine ⟨some g.nodes[c * 8 + j], ?_, ?_⟩
    · rw [if_pos ((and_checkbit_iff adi j hj).mpr hbit)]
      unfold ADIGraph.GetByIndex
      rw [if_neg hne, if_pos hnn]
      rw [show ((c * 8 + j : Nat) : Int).toNat = c * 8 + j from rfl, hgot]
    · intro x
      constructor
      · intro hx
        exact ⟨hbit, by rw [hgot, ← Option.some.inj hx]⟩
      · intro ⟨_, hx⟩
        rw [hgot] at hx
        rw [Option.some.inj hx]
  · refine ⟨none, ?_, ?_⟩
    · rw [if_neg (fun hc => hbit ((and_checkbit_iff adi j hj).mp hc))]
    · intro x
      simp [hbit]

/-- Sequential collection of the fan-out tasks: when every listed
(column, bit) pair with a set bit resolves in range, the scan succeeds
and collects exactly the nodes at the set-bit indices. -/
theorem scanPairs_spec (g : ADIGraph) (adis : List Nat) (hW : g.wordSize = 8) :
    ∀ pairs : List (Nat × Nat),
    (∀ p ∈ pairs, p.2 < 8 ∧ ((adis.getD p.1 0).testBit p.2 →
        p.1 * 8 + p.2 < g.nodes.length)) →
    ∃ l, scanPairs g adis pairs = some l
      ∧ ∀ x, x ∈ l ↔ ∃ p ∈ pairs, (adis.getD p.1 0).testBit p.2
          ∧ g.nodes[p.1 * 8 + p.2]? = some x := by
  intro pairs
  induction pairs with
  | nil =>
    intro _
    exact ⟨[], rfl, by simp⟩
  | cons p rest ih =>
    intro hall
    obtain ⟨c, j⟩ := p
    obtain ⟨hj, hbound⟩ := hall (c, j) (by simp)
    obtain ⟨l, hl, hmem⟩ := ih (fun q hq => hall q (by simp [hq]))
    obtain ⟨r, hr, hriff⟩ := lookup_spec g hW c (adis.getD c 0) j hj hbound
    have hunf : scanPairs g adis ((c, j) :: rest)
        = (match g.lookup c (adis.getD c 0) j with
          | none => none
          | some none => scanPairs g adis rest
          | some (some node) => (scanPairs g adis rest).map (fun l => node :: l)) := rfl
    cases r with
    | none =>
      refine ⟨l, by rw [hunf, hr, hl], ?_⟩
      intro x
      rw [hmem x]
      constructor
      · rintro ⟨q, hq, hbit, hx⟩
        exact ⟨q, by simp [hq], hbit, hx⟩
      · rintro ⟨q, hq, hbit, hx⟩
        rcases List.mem_cons.mp hq with rfl | hqrest
        · exact absurd ((hriff x).mpr ⟨hbit, hx⟩) (by simp)
        · exact ⟨q, hqrest, hbit, hx⟩
    | some node =>
      refine ⟨node :: l, by rw [hunf, hr, hl]; rfl, ?_⟩
      intro x
      constructor
      · intro hx
        rcases List.mem_cons.mp hx with rfl | hxl
        · obtain ⟨hbit, hnode⟩ := (hriff x).mp rfl
          exact ⟨(c, j), by simp, hbit, hnode⟩
        · obtain ⟨q, hq, hbit, hres⟩ := (hmem x).mp hxl
          exact ⟨q, by simp [hq], hbit, hres⟩
      · rintro ⟨q, hq, hbit, hx⟩
        rcases List.mem_cons.mp hq with rfl | hqrest
        · have := (hriff x).mpr ⟨hbit, hx⟩
          rw [Option.some.inj this]
          exact List.mem_cons_self _ _
        · exact List.mem_cons_of_mem _ ((hmem x).mpr ⟨q, hqrest, hbit, hx⟩)

/-- Membership in the spawned (column, offset) pair list. -/
theorem mem_allPairs (cols w : Nat) (p : Nat × Nat) :
    p ∈ allPairs cols w ↔ p.1 < cols ∧ p.2 < w := by
  obtain ⟨c, j⟩ := p
  simp only [allPairs, List.mem_flatMap, List.mem_map, List.mem_range]
  constructor
  · rintro ⟨a, ha, b, hb, heq⟩
    obtain ⟨rfl, rfl⟩ := Prod.mk.injEq .. ▸ And.intro (congrArg Prod.fst heq) (congrArg Prod.snd heq)
    exact ⟨ha, hb⟩
  · rintro ⟨hc, hj⟩
    exact ⟨c, hc, j, hj, rfl⟩

/-- C6: for a node whose set bits all resolve inside the node table,
`Neighbors` succeeds and, viewed as a set, returns exactly the nodes at
global index `c*W + b` for every set bit `b` of adjacency word `c`
(`W = 8`).  The embedding is a pure function, so call repetition or
ordering cannot change the set; failing resolutions contribute nothing
by the `lookup` skip (`lookup_spec`). -/
theorem neighbors_set_spec (g : ADIGraph) (n : Box) (hW : g.wordSize = 8)
    (hb : ∀ (c : Nat) (hc : c < n.adis.length), ∀ (k : Nat), k < 8 →
        (n.adis.get ⟨c, hc⟩).testBit k → c * 8 + k < g.nodes.length) :
    ∃ l, g.Neighbors n = some l
      ∧ ∀ x, x ∈ l ↔ ∃ (c b w : Nat), n.adis[c]? = some w ∧ b < 8
          ∧ w.testBit b ∧ g.nodes[c * 8 + b]? = some x := by
  have hpairs : ∀ p ∈ allPairs n.adis.length g.wordSize, p.2 < 8 ∧
      ((n.adis.getD p.1 0).testBit p.2 → p.1 * 8 + p.2 < g.nodes.length) := by
    intro p hp
    rw [hW] at hp
    obtain ⟨hc, hj⟩ := (mem_allPairs _ _ p).mp hp
    refine ⟨hj, fun hbit => ?_⟩
    have hgD : n.adis.getD p.1 0 = n.adis.get ⟨p.1, hc⟩ := by
      rw [List.getD_eq_getElem?_getD, List.getElem?_eq_getElem hc]
      rfl
    rw [hgD] at hbit
    exact hb p.1 hc p.2 hj hbit
  obtain ⟨l, hl, hmem⟩ :=
    scanPairs_spec g n.adis hW (allPairs n.adis.length g.wordSize) hpairs
  refine ⟨l, hl, ?_⟩
  intro x
  rw [hmem x]
  constructor
  · rintro ⟨⟨c, j⟩, hp, hbit, hres⟩
    rw [hW] at hp
    obtain ⟨hc, hj⟩ := (mem_allPairs _ _ _).mp hp
    refine ⟨c, j, n.adis.getD c 0, ?_, hj, hbit, hres⟩
    rw [List.getD_eq_getElem?_getD, List.getElem?_eq_getElem hc]
    rfl
  · rintro ⟨c, b, w, hw, hb8, hbit, hres⟩
    have hc : c < n.adis.length := (List.getElem?_eq_some_iff.mp hw).1
    refine ⟨(c, b), ?_, ?_, hres⟩
    · rw [hW]
      exact (mem_allPairs _ _ _).mpr ⟨hc, hb8⟩
    · have hgD : n.adis.getD c 0 = w := by
        rw [List.getD_eq_getElem?_getD, hw]
        rfl
      rw [hgD]
      exact hbit

/-- Node "b" of `gABconn` (holding the edge bit for "a"). -/
def bBoxW : Box :=
  match gABconn.GetByLabel "b" with
  | some (Except.ok b) => b
  | _ => NewBox ""

/-- C6 witness: the neighbor-set characterization instantiated on the
two-node graph at node "b". -/
theorem neighbors_set_spec_witness :
    ∃ l, gABconn.Neighbors bBoxW = some l
      ∧ ∀ x, x ∈ l ↔ ∃ (c b w : Nat), bBoxW.adis[c]? = some w ∧ b < 8
          ∧ w.testBit b ∧ gABconn.nodes[c * 8 + b]? = some x :=
  neighbors_set_spec gABconn bBoxW rfl (by decide)

/-! ## C7/C8: BFS -/

/-- Label of the `i`-th demo node (`fmt.Sprintf("Node %d", i)`). -/
def demoLabel (i : Nat) : String := "Node " ++ Nat.repr i

/-- The ten nodes of the demo driver. -/
def demoNodes : ADIGraph :=
  (List.range 10).foldl (fun g i => g.AddNode (NewBox (demoLabel i))) NewGraph

/-- The demo driver's graph: `0->{1,2}, 1->{3,4}, 2->{5,6}, 3->{7,8},
4->{9}` (the driver ignores `Connect`'s error results; a panic would
propagate as `none`). -/
def demoGraph : Option ADIGraph :=
  match demoNodes.Connect (demoLabel 0) [demoLabel 1, demoLabel 2] with
  | none => none
  | some (g, _) =>
  match g.Connect (demoLabel 1) [demoLabel 3, demoLabel 4] with
  | none => none
  | some (g, _) =>
  match g.Connect (demoLabel 2) [demoLabel 5, demoLabel 6] with
  | none => none
  | some (g, _) =>
  match g.Connect (demoLabel 3) [demoLabel 7, demoLabel 8] with
  | none => none
  | some (g, _) =>
  match g.Connect (demoLabel 4) [demoLabel 9] with
  | none => none
  | some (g, _) => some g

/-- C7: on the demo graph, `BFS("Node 0", "Node 9")` returns true and
`BFS("Node 9", "Node 0")` returns false (fuel 32 is ample; the queue
empties without fuel running out). -/
theorem demo_bfs_reaches_9_not_0 :
    (demoGraph.bind fun g =>
      match g.GetByLabel (demoLabel 0), g.GetByLabel (demoLabel 9) with
      | some (Except.ok a), some (Except.ok b) => some (g.BFS a b 32, g.BFS b a 32)
      | _, _ => none) = some (BfsRes.found true, BfsRes.found false) := by decide

/-- Cycle graph for C8: "x" and "y" point at each other; "t" is a
third node nothing points to. -/
def cycGraph : ADIGraph :=
  (match (((NewGraph.AddNode (NewBox "x")).AddNode (NewBox "y")).AddNode
      (NewBox "t")).Connect "x" ["y"] with
  | none => NewGraph
  | some (g, _) =>
    match g.Connect "y" ["x"] with
    | none => NewGraph
    | some (g, _) => g)

/-- Node "x" of `cycGraph`. -/
def xBox : Box :=
  match cycGraph.GetByLabel "x" with
  | some (Except.ok b) => b
  | _ => NewBox ""

/-- Node "y" of `cycGraph`. -/
def yBox : Box :=
  match cycGraph.GetByLabel "y" with
  | some (Except.ok b) => b
  | _ => NewBox ""

/-- Node "t" of `cycGraph`. -/
def tBox : Box :=
  match cycGraph.GetByLabel "t" with
  | some (Except.ok b) => b
  | _ => NewBox ""

/-- Locator of the BFS target "t" in `cycGraph`. -/
def tLoc : Locator := (cycGraph.GetLocatorsByLabel "t").1

/-- The BFS queue on the cycle alternates between `[y]` and `[x]`
forever: the loop exhausts any amount of fuel. -/
theorem cyc_loop_never_empties : ∀ f,
    bfsLoop cycGraph tLoc [yBox] f = BfsRes.fuelOut
    ∧ bfsLoop cycGraph tLoc [xBox] f = BfsRes.fuelOut
  | 0 => ⟨rfl, rfl⟩
  | f + 1 => ⟨(cyc_loop_never_empties f).2, (cyc_loop_never_empties f).1⟩

/-- C8: BFS has no visited set, so on the two-node cycle x↔y with
target "t" (no inbound edges) the queue never becomes empty: the run
exhausts every fuel bound, the fuel-indexed model of non-termination.
The adjacency words confirm the shape: x holds bit 1 (edge to y),
y holds bit 0 (edge to x), t holds no inbound bit anywhere. -/
theorem bfs_cycle_never_terminates :
    cycGraph.nodes.map Box.adis = [[2, 0], [1, 0], [0, 0]]
    ∧ ∀ fuel, cycGraph.BFS xBox tBox fuel = BfsRes.fuelOut := by
  refine ⟨by decide, fun fuel => ?_⟩
  show bfsLoop cycGraph tLoc [yBox] fuel = BfsRes.fuelOut
  exact (cyc_loop_never_empties fuel).1

/-! ## C10: reachability invariant -/

/-- A successful `GetByIndex` means a non-negative in-range index and
the node at that slot. -/
theorem getByIndex_ok (g : ADIGraph) (i : Int) (n : Box) :
    g.GetByIndex i = some (Except.ok n) → 0 ≤ i ∧ g.nodes[i.toNat]? = some n := by
  intro h
  unfold ADIGraph.GetByIndex at h
  split at h
  · simp at h
  · split at h
    · cases hg : g.nodes[i.toNat]? with
      | none => rw [hg] at h; simp at h
      | some m =>
        rw [hg] at h
        have h2 : some (Except.ok m) = some (Except.ok (ε := AdiError) n) := h
        have hmn : m = n := Except.ok.inj (Option.some.inj h2)
        exact ⟨by assumption, by rw [hmn]⟩
    · simp at h

/-- A successful `AddEdges` run had every locator column in range. -/
theorem addEdges_some_bounds : ∀ (locs : List Locator) (b b' : Box),
    Box.AddEdges b locs = some b' →
    ∀ v ∈ locs, 0 ≤ v.column ∧ v.column.toNat < b.adis.length := by
  intro locs
  induction locs with
  | nil => intro b b' _ v hv; simp at hv
  | cons u rest ih =>
    intro b b' h v hv
    have hunf : Box.AddEdges b (u :: rest) = (match setBit b.adis u with
      | some adis' => Box.AddEdges { b with adis := adis' } rest
      | none => none) := rfl
    rw [hunf] at h
    cases hs : setBit b.adis u with
    | none => rw [hs] at h; simp at h
    | some adis' =>
      rw [hs] at h
      have hu : 0 ≤ u.column ∧ u.column.toNat < b.adis.length := by
        unfold setBit at hs
        split at hs
        · cases hg : b.adis[u.column.toNat]? with
          | none => rw [hg] at hs; simp at hs
          | some w =>
            exact ⟨by assumption, (List.getElem?_eq_some_iff.mp hg).1⟩
        · simp at hs
      have hlen : adis'.length = b.adis.length := by
        unfold setBit at hs
        split at hs
        · cases hg : b.adis[u.column.toNat]? with
          | none => rw [hg] at hs; simp at hs
          | some w =>
            rw [hg] at hs
            rw [← Option.some.inj hs, List.length_set]
        · simp at hs
      rcases List.mem_cons.mp hv with rfl | hvrest
      · exact hu
      · have := ih { b with adis := adis' } b' h v hvrest
        rw [show ({ b with adis := adis' } : Box).adis = adis' from rfl, hlen] at this
        exact this

/-- A successful single-locator `RemoveEdges` only clears bits and
keeps the word count. -/
theorem removeEdges_single_some (b b' : Box) (v : Locator) :
    Box.RemoveEdges b [v] = some b' →
    b'.adis.length = b.adis.length
    ∧ b'.label = b.label
    ∧ (∀ (c k w' : Nat), b'.adis[c]? = some w' → w'.testBit k →
        ∃ w, b.adis[c]? = some w ∧ w.testBit k) := by
  intro h
  have hunf : Box.RemoveEdges b [v] = (match clearBit b.adis v with
    | some adis' => Box.RemoveEdges { b with adis := adis' } []
    | none => none) := rfl
  rw [hunf] at h
  cases hs : clearBit b.adis v with
  | none => rw [hs] at h; simp at h
  | some adis' =>
    rw [hs] at h
    have hb' : b' = { b with adis := adis' } :=
      (Option.some.inj h).symm
    unfold clearBit at hs
    split at hs
    · cases hg : b.adis[v.column.toNat]? with
      | none => rw [hg] at hs; simp at hs
      | some w0 =>
        rw [hg] at hs
        have hadis : adis' = b.adis.set v.column.toNat (w0 &&& (255 ^^^ v.offset)) :=
          (Option.some.inj hs).symm
        have hbadis : b'.adis = b.adis.set v.column.toNat (w0 &&& (255 ^^^ v.offset)) := by
          rw [hb', hadis]
        have hblab : b'.label = b.label := by rw [hb']
        refine ⟨by rw [hbadis, List.length_set], hblab, ?_⟩
        intro c k w' hw' hk
        rw [hbadis] at hw'
        by_cases hcc : c = v.column.toNat
        · subst hcc
          have hclen : v.column.toNat < b.adis.length := (List.getElem?_eq_some_iff.mp hg).1
          rw [List.getElem?_set_self (by simpa using hclen)] at hw'
          obtain rfl := Option.some.inj hw'
          refine ⟨w0, hg, ?_⟩
          rw [Nat.testBit_and] at hk
          exact (Bool.and_eq_true_iff.mp hk).1
        · rw [List.getElem?_set_ne (fun hh => hcc hh.symm)] at hw'
          exact ⟨w', hw', hk⟩
    · simp at hs

/-- A successful deletion loop keeps positions and only clears bits. -/
theorem removeFromAll_some_bits :
    ∀ (nodes nodes' : List Box) (v : Locator),
    ADIGraph.DeleteByIndex.removeFromAll nodes v = some nodes' →
    nodes'.length = nodes.length
    ∧ ∀ (j : Nat) (b' : Box), nodes'[j]? = some b' → ∃ b, nodes[j]? = some b
        ∧ b'.adis.length = b.adis.length
        ∧ (∀ (c k w' : Nat), b'.adis[c]? = some w' → w'.testBit k →
            ∃ w, b.adis[c]? = some w ∧ w.testBit k) := by
  intro nodes
  induction nodes with
  | nil =>
    intro nodes' v h
    have : nodes' = [] := (Option.some.inj h).symm
    subst this
    exact ⟨rfl, fun j b' hj => by simp at hj⟩
  | cons b rest ih =>
    intro nodes' v h
    have hunf : ADIGraph.DeleteByIndex.removeFromAll (b :: rest) v
        = (match Box.RemoveEdges b [v] with
          | none => none
          | some b' => (match ADIGraph.DeleteByIndex.removeFromAll rest v with
            | none => none
            | some rest' => some (b' :: rest'))) := rfl
    rw [hunf] at h
    cases hre : Box.RemoveEdges b [v] with
    | none => rw [hre] at h; simp at h
    | some b1 =>
      rw [hre] at h
      cases hrest : ADIGraph.DeleteByIndex.removeFromAll rest v with
      | none => rw [hrest] at h; simp at h
      | some rest' =>
        rw [hrest] at h
        have hn : nodes' = b1 :: rest' := (Option.some.inj h).symm
        subst hn
        obtain ⟨hlen1, _, hbits1⟩ := removeEdges_single_some b b1 v hre
        obtain ⟨hlenr, hbitsr⟩ := ih rest' v hrest
        refine ⟨by simp [hlenr], ?_⟩
        intro j b' hj
        cases j with
        | zero =>
          simp only [List.getElem?_cons_zero] at hj
          obtain rfl := Option.some.inj hj
          exact ⟨b, by simp, hlen1, hbits1⟩
        | succ j =>
          simp only [List.getElem?_cons_succ] at hj ⊢
          exact hbitsr j b' hj

/-- Every locator produced by target resolution is the locator of a
live in-range index (given well-formed label bindings). -/
theorem resolveTargets_good (g : ADIGraph) (hW : g.wordSize = 8)
    (hlabs : ∀ p ∈ g.labels, p.2 = -1 ∨ (0 ≤ p.2 ∧ p.2.toNat < g.nodes.length)) :
    ∀ ts : List String, ∀ v ∈ resolveTargets g ts,
    ∃ m : Nat, m < g.nodes.length ∧ v = ⟨((m / 8 : Nat) : Int), 1 <<< (m % 8)⟩ := by
  have hone : ∀ u l, g.GetLocatorsByLabel u = (l, none) →
      ∃ m : Nat, m < g.nodes.length ∧ l = ⟨((m / 8 : Nat) : Int), 1 <<< (m % 8)⟩ := by
    intro u l hres
    unfold ADIGraph.GetLocatorsByLabel at hres
    cases hls : lookupLabel g u with
    | none => rw [hls] at hres; simp at hres
    | some idx =>
      rw [hls] at hres
      replace hres : g.GetLocatorsByIndex idx = (l, none) := hres
      have hidx : idx = -1 ∨ (0 ≤ idx ∧ idx.toNat < g.nodes.length) := by
        unfold lookupLabel at hls
        cases hf : g.labels.find? (fun p => p.1 == u) with
        | none => rw [hf] at hls; simp at hls
        | some p =>
          rw [hf] at hls
          have hp2 : p.2 = idx := Option.some.inj hls
          have := hlabs p (List.mem_of_find?_eq_some hf)
          rw [hp2] at this
          exact this
      rcases hidx with rfl | ⟨h0, hlt⟩
      · have hcontra : ((⟨0, 0⟩ : Locator), some AdiError.deleted)
            = ((l, none) : Locator × Option AdiError) := hres
        exact absurd (congrArg Prod.snd hcontra) (by simp)
      · rw [getLocators_nonneg g hW idx h0] at hres
        have hl : l = ⟨((idx.toNat / 8 : Nat) : Int), 1 <<< (idx.toNat % 8)⟩ :=
          (congrArg Prod.fst hres).symm
        exact ⟨idx.toNat, hlt, hl⟩
  intro ts
  induction ts with
  | nil => intro v hv; simp [resolveTargets] at hv
  | cons u rest ih =>
    intro v hv
    have hunf : resolveTargets g (u :: rest) = (match g.GetLocatorsByLabel u with
      | (l, none) => l :: resolveTargets g rest
      | (_, some _) => resolveTargets g rest) := rfl
    rw [hunf] at hv
    rcases hgu : g.GetLocatorsByLabel u with ⟨l, e⟩
    cases e with
    | none =>
      rw [hgu] at hv
      rcases List.mem_cons.mp hv with rfl | hvrest
      · exact hone u v hgu
      · exact ih v hvrest
    | some err =>
      rw [hgu] at hv
      exact ih v hv

/-- The graph invariant behind C10: the word size is the constructed 8,
every set bit of every node addresses a slot inside the node table, and
every label binding is the deleted sentinel or a live in-range index. -/
def AdiInv (g : ADIGraph) : Prop :=
  g.wordSize = 8
  ∧ (∀ b ∈ g.nodes, ∀ (c k w : Nat), b.adis[c]? = some w → w.testBit k →
      c * 8 + k < g.nodes.length)
  ∧ (∀ p ∈ g.labels, p.2 = -1 ∨ (0 ≤ p.2 ∧ p.2.toNat < g.nodes.length))

/-- Graphs reachable from `NewGraph` through the public API with
`NewBox` nodes.  A panicking call (`none`) produces no state. -/
inductive Reachable : ADIGraph → Prop
  | new : Reachable NewGraph
  | add {g : ADIGraph} (lab : String) : Reachable g → Reachable (g.AddNode (NewBox lab))
  | conn {g g' : ADIGraph} (src : String) (ts : List String) (e : Option AdiError) :
      Reachable g → g.Connect src ts = some (g', e) → Reachable g'
  | delIdx {g g' : ADIGraph} (i : Int) :
      Reachable g → g.DeleteByIndex i = some g' → Reachable g'
  | delLab {g g' : ADIGraph} (lab : String) (e : Option AdiError) :
      Reachable g → g.DeleteByLabel lab = some (g', e) → Reachable g'

/-- `AddColumn` introduces no set bit: every bit of the longer word
array was already set in the old one. -/
theorem addColumn_bits (b : Box) (c k w : Nat) :
    (Box.AddColumn b).adis[c]? = some w → w.testBit k →
    ∃ w0, b.adis[c]? = some w0 ∧ w0.testBit k := by
  intro hw hk
  have hadis : (Box.AddColumn b).adis = b.adis ++ [0] := rfl
  rw [hadis] at hw
  rcases Nat.lt_trichotomy c b.adis.length with hc | hc | hc
  · rw [List.getElem?_append_left hc] at hw
    exact ⟨w, hw, hk⟩
  · rw [hc, List.getElem?_concat_length] at hw
    obtain rfl := (Option.some.inj hw).symm
    exact absurd hk (by simp)
  · rw [List.getElem?_eq_none (by simp; omega)] at hw
    simp at hw

/-- A fresh `NewBox` has no set bit. -/
theorem newBox_no_bits (lab : String) (c k w : Nat) :
    (NewBox lab).adis[c]? = some w → w.testBit k → False := by
  intro hw hk
  have hmem : w ∈ (NewBox lab).adis := by
    obtain ⟨hlt, heq⟩ := List.getElem?_eq_some_iff.mp hw
    exact heq ▸ List.getElem_mem hlt
  have hw0 : w = 0 := by simpa [NewBox] using hmem
  subst hw0
  simp at hk

/-- `AddNode` of a fresh box preserves the invariant. -/
theorem inv_addNode (g : ADIGraph) (lab : String) (h : AdiInv g) :
    AdiInv (g.AddNode (NewBox lab)) := by
  obtain ⟨hW, hbits, hlabs⟩ := h
  have hlen := addNode_length g (NewBox lab)
  have hnodes : (g.AddNode (NewBox lab)).nodes
        = (g.nodes ++ [NewBox lab]).map Box.AddColumn
      ∨ (g.AddNode (NewBox lab)).nodes = g.nodes ++ [NewBox lab] := by
    unfold ADIGraph.AddNode
    split
    · exact Or.inl rfl
    · exact Or.inr rfl
  have hlabeq : (g.AddNode (NewBox lab)).labels
      = ((NewBox lab).label, (g.nodes.length : Int)) :: g.labels := by
    unfold ADIGraph.AddNode
    split
    · rfl
    · rfl
  refine ⟨by rw [addNode_wordSize]; exact hW, ?_, ?_⟩
  · intro b hb c k w hw hk
    rw [hlen]
    rcases hnodes with hn | hn
    · rw [hn] at hb
      obtain ⟨b0, hb0mem, rfl⟩ := List.mem_map.mp hb
      obtain ⟨w0, hw0, hk0⟩ := addColumn_bits b0 c k w hw hk
      rcases List.mem_append.mp hb0mem with hmem | hmem
      · have := hbits b0 hmem c k w0 hw0 hk0
        omega
      · have hb0 : b0 = NewBox lab := by simpa using hmem
        subst hb0
        exact (newBox_no_bits lab c k w0 hw0 hk0).elim
    · rw [hn] at hb
      rcases List.mem_append.mp hb with hmem | hmem
      · have := hbits b hmem c k w hw hk
        omega
      · have hb0 : b = NewBox lab := by simpa using hmem
        subst hb0
        exact (newBox_no_bits lab c k w hw hk).elim
  · intro p hp
    rw [hlabeq] at hp
    rw [hlen]
    rcases List.mem_cons.mp hp with rfl | hmem
    · refine Or.inr ⟨by positivity, ?_⟩
      simp
    · rcases hlabs p hmem with h1 | ⟨h0, hlt⟩
      · exact Or.inl h1
      · exact Or.inr ⟨h0, by omega⟩

/-- `Connect` preserves the invariant. -/
theorem inv_connect (g g' : ADIGraph) (src : String) (ts : List String) (e : Option AdiError)
    (h : AdiInv g) (hc : g.Connect src ts = some (g', e)) : AdiInv g' := by
  obtain ⟨hW, hbits, hlabs⟩ := h
  unfold ADIGraph.Connect at hc
  cases hls : lookupLabel g src with
  | none =>
    rw [hls] at hc
    obtain rfl : g = g' := congrArg Prod.fst (Option.some.inj hc)
    exact ⟨hW, hbits, hlabs⟩
  | some idx =>
    rw [hls] at hc
    replace hc : (if idx = -1 then some (g, some AdiError.labelNotFound)
        else if 0 ≤ idx then
          match g.nodes[idx.toNat]? with
          | none => none
          | some item =>
            match Box.AddEdges item (resolveTargets g ts) with
            | none => none
            | some item' => some ({ g with nodes := g.nodes.set idx.toNat item' }, none)
        else none) = some (g', e) := hc
    split at hc
    · obtain rfl : g = g' := congrArg Prod.fst (Option.some.inj hc)
      exact ⟨hW, hbits, hlabs⟩
    · split at hc
      · cases hni : g.nodes[idx.toNat]? with
        | none => rw [hni] at hc; simp at hc
        | some item =>
          rw [hni] at hc
          replace hc : (match Box.AddEdges item (resolveTargets g ts) with
            | none => none
            | some item' =>
              some ({ g with nodes := g.nodes.set idx.toNat item' }, none)) = some (g', e) := hc
          cases hae : Box.AddEdges item (resolveTargets g ts) with
          | none => rw [hae] at hc; simp at hc
          | some item' =>
            rw [hae] at hc
            have hg' : g' = { g with nodes := g.nodes.set idx.toNat item' } :=
              (congrArg Prod.fst (Option.some.inj hc)).symm
            have hbounds := addEdges_some_bounds (resolveTargets g ts) item item' hae
            obtain ⟨x', hadd, hxlen, _, _, _, _, hnew⟩ :=
              addEdges_spec (resolveTargets g ts) item hbounds
            obtain rfl : x' = item' := Option.some.inj (hadd.symm.trans hae)
            have hitemmem : item ∈ g.nodes := by
              obtain ⟨hlt, heq⟩ := List.getElem?_eq_some_iff.mp hni
              exact heq ▸ List.getElem_mem hlt
            have hlen' : g'.nodes.length = g.nodes.length := by
              rw [hg']
              exact List.length_set ..
            refine ⟨by rw [hg']; exact hW, ?_, ?_⟩
            · intro b hb c k w hw hk
              rw [hlen']
              rw [hg'] at hb
              rcases List.mem_or_eq_of_mem_set hb with hmem | rfl
              · exact hbits b hmem c k w hw hk
              · rcases hnew c k w hw hk with ⟨w0, hw0, hk0⟩ | ⟨v, hv, rfl, hvk⟩
                · exact hbits item hitemmem c k w0 hw0 hk0
                · obtain ⟨m, hm, rfl⟩ := resolveTargets_good g hW hlabs ts v hv
                  have hk8 : m % 8 = k := by
                    have hb2 : (1 : Nat) <<< (m % 8) = 2 ^ (m % 8) := by
                      rw [Nat.shiftLeft_eq, one_mul]
                    rw [hb2, Nat.testBit_two_pow] at hvk
                    exact of_decide_eq_true hvk
                  have hcol : ((((m / 8 : Nat) : Int)) : Int).toNat = m / 8 := rfl
                  rw [hcol, ← hk8]
                  have := Nat.div_add_mod m 8
                  omega
            · intro p hp
              rw [hg'] at hp
              rw [hlen']
              rcases hlabs p hp with h1 | ⟨h0, hlt⟩
              · exact Or.inl h1
              · exact Or.inr ⟨h0, hlt⟩
      · simp at hc

/-- `DeleteByIndex` preserves the invariant. -/
theorem inv_deleteByIndex (g g' : ADIGraph) (i : Int)
    (h : AdiInv g) (hd : g.DeleteByIndex i = some g') : AdiInv g' := by
  obtain ⟨hW, hbits, hlabs⟩ := h
  unfold ADIGraph.DeleteByIndex at hd
  cases hgb : g.GetByIndex i with
  | none => rw [hgb] at hd; simp at hd
  | some r =>
    rw [hgb] at hd
    cases r with
    | error err => simp at hd
    | ok n =>
      obtain ⟨h0, hni⟩ := getByIndex_ok g i n hgb
      replace hd : (match ADIGraph.DeleteByIndex.removeFromAll
          (g.nodes.set i.toNat (Box.Delete n)) (g.GetLocatorsByIndex i).1 with
        | none => none
        | some nodes₂ =>
          some { g with labels := ((n.label, (-1 : Int)) :: g.labels), nodes := nodes₂ })
          = some g' := hd
      cases hrfa : ADIGraph.DeleteByIndex.removeFromAll
          (g.nodes.set i.toNat (Box.Delete n)) (g.GetLocatorsByIndex i).1 with
      | none => rw [hrfa] at hd; simp at hd
      | some nodes2 =>
        rw [hrfa] at hd
        have hg' : g' = { g with labels := ((n.label, (-1 : Int)) :: g.labels), nodes := nodes2 } :=
          (Option.some.inj hd).symm
        obtain ⟨hlen2, hget2⟩ := removeFromAll_some_bits
          (g.nodes.set i.toNat (Box.Delete n)) nodes2 (g.GetLocatorsByIndex i).1 hrfa
        have hlen' : nodes2.length = g.nodes.length := by
          rw [hlen2, List.length_set]
        refine ⟨by rw [hg']; exact hW, ?_, ?_⟩
        · intro b hb c k w hw hk
          rw [hg'] at hb
          replace hb : b ∈ nodes2 := hb
          obtain ⟨j, hj, hjeq⟩ := List.mem_iff_getElem.mp hb
          have hjs : nodes2[j]? = some b := by
            rw [List.getElem?_eq_getElem hj, hjeq]
          obtain ⟨b0, hb0, _, hbitmono⟩ := hget2 j b hjs
          obtain ⟨w0, hw0, hk0⟩ := hbitmono c k w hw hk
          have hb0mem : b0 ∈ g.nodes.set i.toNat (Box.Delete n) := by
            obtain ⟨hlt, heq⟩ := List.getElem?_eq_some_iff.mp hb0
            exact heq ▸ List.getElem_mem hlt
          have hbound : c * 8 + k < g.nodes.length := by
            rcases List.mem_or_eq_of_mem_set hb0mem with hmem | rfl
            · exact hbits b0 hmem c k w0 hw0 hk0
            · have hnmem : n ∈ g.nodes := by
                obtain ⟨hlt, heq⟩ := List.getElem?_eq_some_iff.mp hni
                exact heq ▸ List.getElem_mem hlt
              have hdadis : (Box.Delete n).adis = n.adis := rfl
              rw [hdadis] at hw0
              exact hbits n hnmem c k w0 hw0 hk0
          have hglen : g'.nodes.length = g.nodes.length := by
            rw [hg']
            exact hlen'
          rw [hglen]
          exact hbound
        · intro p hp
          rw [hg'] at hp
          replace hp : p ∈ (n.label, (-1 : Int)) :: g.labels := hp
          have hglen : g'.nodes.length = g.nodes.length := by
            rw [hg']
            exact hlen'
          rw [hglen]
          rcases List.mem_cons.mp hp with rfl | hmem
          · exact Or.inl rfl
          · exact hlabs p hmem

/-- `DeleteByLabel` preserves the invariant. -/
theorem inv_deleteByLabel (g g' : ADIGraph) (lab : String) (e : Option AdiError)
    (h : AdiInv g) (hd : g.DeleteByLabel lab = some (g', e)) : AdiInv g' := by
  unfold ADIGraph.DeleteByLabel at hd
  cases hls : lookupLabel g lab with
  | none =>
    rw [hls] at hd
    obtain rfl : g = g' := congrArg Prod.fst (Option.some.inj hd)
    exact h
  | some idx =>
    rw [hls] at hd
    replace hd : (match g.DeleteByIndex idx with
      | none => none
      | some g2 => some (g2, (none : Option AdiError))) = some (g', e) := hd
    cases hdi : g.DeleteByIndex idx with
    | none => rw [hdi] at hd; simp at hd
    | some g2 =>
      rw [hdi] at hd
      obtain rfl : g2 = g' := congrArg Prod.fst (Option.some.inj hd)
      exact inv_deleteByIndex g g2 idx h hdi

/-- Every reachable graph satisfies the invariant. -/
theorem reachable_inv {g : ADIGraph} (h : Reachable g) : AdiInv g := by
  induction h with
  | new => exact ⟨rfl, by simp [NewGraph], by simp [NewGraph]⟩
  | add lab _ ih => exact inv_addNode _ lab ih
  | conn src ts e _ hc ih => exact inv_connect _ _ src ts e ih hc
  | delIdx i _ hd ih => exact inv_deleteByIndex _ _ i ih hd
  | delLab lab e _ hd ih => exact inv_deleteByLabel _ _ lab e ih hd

/-- C10: in every graph reachable from `NewGraph` through the public
API (`AddNode` with `NewBox` nodes, `Connect`, `DeleteByIndex`,
`DeleteByLabel`), every set bit — word `c`, bit `k` — of any node's
adjacency words satisfies `c*8 + k < Size()`; consequently the bit
scan inside `Neighbors` only resolves indices strictly inside the node
table and `Neighbors` never panics on a node of the graph. -/
theorem reachable_bits_within_size (g : ADIGraph) (h : Reachable g) :
    (∀ b ∈ g.nodes, ∀ (c k w : Nat), b.adis[c]? = some w → w.testBit k →
        c * 8 + k < g.Size)
    ∧ (∀ b ∈ g.nodes, ∃ l, g.Neighbors b = some l) := by
  obtain ⟨hW, hbits, _⟩ := reachable_inv h
  refine ⟨fun b hb c k w hw hk => hbits b hb c k w hw hk, fun b hb => ?_⟩
  have hpairs : ∀ p ∈ allPairs b.adis.length g.wordSize, p.2 < 8 ∧
      ((b.adis.getD p.1 0).testBit p.2 → p.1 * 8 + p.2 < g.nodes.length) := by
    intro p hp
    rw [hW] at hp
    obtain ⟨hc, hj⟩ := (mem_allPairs _ _ p).mp hp
    refine ⟨hj, fun hbit => ?_⟩
    have hgd : b.adis[p.1]? = some (b.adis.getD p.1 0) := by
      have h1 : b.adis.getD p.1 0 = b.adis[p.1] := by
        rw [List.getD_eq_getElem?_getD, List.getElem?_eq_getElem hc]
        rfl
      rw [h1]
      exact List.getElem?_eq_getElem hc
    exact hbits b hb p.1 p.2 _ hgd hbit
  obtain ⟨l, hl, _⟩ :=
    scanPairs_spec g b.adis hW (allPairs b.adis.length g.wordSize) hpairs
  exact ⟨l, hl⟩

/-- C10 witness: the invariant instantiated on the concrete reachable
graph built by two insertions and one `Connect`. -/
theorem reachable_bits_within_size_witness :
    (∀ b ∈ gABconn.nodes, ∀ (c k w : Nat), b.adis[c]? = some w → w.testBit k →
        c * 8 + k < gABconn.Size)
    ∧ (∀ b ∈ gABconn.nodes, ∃ l, gABconn.Neighbors b = some l) := by
  have r1 : Reachable gAB := Reachable.add "b" (Reachable.add "a" Reachable.new)
  have r2 : Reachable gABconn := Reachable.conn "b" ["a"] none r1 (by decide)
  exact reachable_bits_within_size gABconn r2
